import Mathlib

/-!
# Verification of the ezexcel row/value (de)serialization engine

Shallow embedding of `src/ezspreadsheet.py` (class `Spreadsheet`).

Python strings are modelled as `List Char` (`PyStr`) and the Python string
operations the code uses (`split`, `strip`, `replace(c, "")`, slicing
`[1:-2]`, `startswith`) are given their documented Python semantics as
executable Lean functions.  Python attribute values are modelled by the
inductive `PyValue` covering the types the code distinguishes:
`str`, `int`, `float`, `datetime.datetime`, `list`, `tuple`, `dict`.
`float` and `datetime` payloads are abstract tags: the code only ever
passes them through unchanged, so their contents never matter.
-/

namespace EzSpreadsheet

/-- A Python string, modelled as its list of characters. -/
abbrev PyStr := List Char

/-- Python `str.split(sep)` for a single-character separator: splits on every
occurrence, never merging; `"".split(sep) == [""]`. -/
def pySplit (sep : Char) : PyStr → List PyStr
  | [] => [[]]
  | c :: rest =>
    if c = sep then [] :: pySplit sep rest
    else
      match pySplit sep rest with
      | [] => [[c]]
      | h :: t => (c :: h) :: t

/-- The characters Python `str.strip()` removes: exactly the code points
where `str.isspace()` holds (U+0009–U+000D, U+001C–U+001F, space, U+0085,
U+00A0, U+1680, U+2000–U+200A, U+2028, U+2029, U+202F, U+205F, U+3000). -/
def isPySpace (c : Char) : Bool :=
  (0x9 ≤ c.toNat && c.toNat ≤ 0xd) || (0x1c ≤ c.toNat && c.toNat ≤ 0x20) ||
  c.toNat = 0x85 || c.toNat = 0xa0 || c.toNat = 0x1680 ||
  (0x2000 ≤ c.toNat && c.toNat ≤ 0x200a) || c.toNat = 0x2028 || c.toNat = 0x2029 ||
  c.toNat = 0x202f || c.toNat = 0x205f || c.toNat = 0x3000

/-- Python `str.strip()`: drop leading and trailing whitespace. -/
def pyStrip (s : PyStr) : PyStr :=
  ((s.dropWhile isPySpace).reverse.dropWhile isPySpace).reverse

/-- Python `str.replace(c, "")` for a single-character pattern: delete every
occurrence of the character. -/
def pyReplaceDel (c : Char) (s : PyStr) : PyStr :=
  s.filter (fun d => d ≠ c)

/-- Python slice `s[1:-2]`: drop the first character and the last two. -/
def pySlice1neg2 (s : PyStr) : PyStr :=
  ((s.drop 1).dropLast).dropLast

/-- A Python value of one of the types `_add_row_to_spreadsheet` and
`_load_values` distinguish. -/
inductive PyValue
  | str (s : PyStr)
  | int (n : Int)
  | float (f : Nat)
  | datetime (d : Nat)
  | list (xs : List PyValue)
  | tuple (xs : List PyValue)
  | dict (kvs : List (PyValue × PyValue))

/-- `", "`-intercalation, as Python renders container elements. -/
def joinComma : List PyStr → PyStr
  | [] => []
  | [s] => s
  | s :: rest => s ++ ',' :: ' ' :: joinComma rest

/-- One character of a CPython string `repr` body, for quote character `q`:
the quote and the backslash are backslash-escaped, tab/newline/return get
their short escapes, other control characters (and DEL) get `\xHH`.  All
other characters pass through — faithful for the whole ASCII range and for
printable non-ASCII; non-printable non-ASCII code points (which CPython
escapes using Unicode tables) also pass through here and are excluded from
every hypothesis that reaches this function. -/
def reprEscapeChar (q c : Char) : PyStr :=
  if c = q ∨ c = '\\' then ['\\', c]
  else if c = '\t' then ['\\', 't']
  else if c = '\n' then ['\\', 'n']
  else if c = '\r' then ['\\', 'r']
  else if c.toNat < 0x20 ∨ c.toNat = 0x7f then
    ['\\', 'x', Nat.digitChar (c.toNat / 16 % 16), Nat.digitChar (c.toNat % 16)]
  else [c]

/-- The escaped body of a string `repr`. -/
def reprEscape (q : Char) : PyStr → PyStr
  | [] => []
  | c :: rest => reprEscapeChar q c ++ reprEscape q rest

/-- CPython `repr` of a string: double quotes when the string contains a
single quote but no double quote, else single quotes; the body escaped
accordingly. -/
def pyReprStr (s : PyStr) : PyStr :=
  if '\'' ∈ s ∧ '\"' ∉ s then '\"' :: (reprEscape '\"' s ++ ['\"'])
  else '\'' :: (reprEscape '\'' s ++ ['\''])

mutual

/-- Python `repr` of a value (what `str` prints for containers): strings via
`pyReprStr`, ints decimal, lists `[e1, e2]`, tuples `(e1, e2)` (with the
trailing comma for singletons), dicts `\x7bk: v\x7d`.  `float`/`datetime`
payloads get an abstract placeholder rendering. -/
def pyRepr : PyValue → PyStr
  | .str s => pyReprStr s
  | .int n => (toString n).data
  | .float f => ("float0x" ++ toString f).data
  | .datetime d => ("datetime0x" ++ toString d).data
  | .list xs => '[' :: (joinComma (pyReprList xs) ++ [']'])
  | .tuple [x] => '(' :: (pyRepr x ++ [',', ')'])
  | .tuple xs => '(' :: (joinComma (pyReprList xs) ++ [')'])
  | .dict kvs => '\x7b' :: (joinComma (pyReprPairs kvs) ++ ['\x7d'])

/-- `repr` of each element of a list. -/
def pyReprList : List PyValue → List PyStr
  | [] => []
  | x :: xs => pyRepr x :: pyReprList xs

/-- `repr(key) ++ ": " ++ repr(value)` for each dict entry. -/
def pyReprPairs : List (PyValue × PyValue) → List PyStr
  | [] => []
  | (k, v) :: rest => (pyRepr k ++ ':' :: ' ' :: pyRepr v) :: pyReprPairs rest

end

/-- Python `str(value)`: the string itself for strings, `repr` otherwise
(for the value types modelled here). -/
def pyStrOf : PyValue → PyStr
  | .str s => s
  | v => pyRepr v

/-- A cell value as stored in (and read back from) the worksheet: the code's
native pass-through types, or a string. -/
inductive Cell
  | cStr (s : PyStr)
  | cInt (n : Int)
  | cFloat (f : Nat)
  | cDate (d : Nat)
  deriving DecidableEq

/-- `_add_row_to_spreadsheet`, dict-with-readable branch:
`flattened_value += f"- \x7bkey\x7d: \x7bvalue[key]\x7d\n"` over the dict. -/
def flattenedDict (kvs : List (PyValue × PyValue)) : PyStr :=
  kvs.foldl (fun acc p => acc ++ '-' :: ' ' :: (pyStrOf p.1 ++ ':' :: ' ' :: (pyStrOf p.2 ++ ['\n']))) []

/-- `_add_row_to_spreadsheet`, iterable-with-readable branch:
`flattened_value += f"- \x7bstr(sub_value)\x7d\n"` over the iterable. -/
def flattenedIter (xs : List PyValue) : PyStr :=
  xs.foldl (fun acc x => acc ++ '-' :: ' ' :: (pyStrOf x ++ ['\n'])) []

/-- The cell written for one value by `_add_row_to_spreadsheet` (lines
195-216): native scalars pass through; a dict with `readable` flattens to
bullet lines; any other value with `readable` flattens element-wise;
otherwise `str(value)` is stored. -/
def encodeValue (readable : Bool) : PyValue → Cell
  | .str s => .cStr s
  | .int n => .cInt n
  | .float f => .cFloat f
  | .datetime d => .cDate d
  | .dict kvs =>
    if readable then .cStr (flattenedDict kvs)
    else .cStr (pyStrOf (.dict kvs))
  | .list xs =>
    if readable then .cStr (flattenedIter xs)
    else .cStr (pyStrOf (.list xs))
  | .tuple xs =>
    if readable then .cStr (flattenedIter xs)
    else .cStr (pyStrOf (.tuple xs))

/-- The sequence of cells a data row's values are written as. -/
def encodeRow (readable : Bool) (vals : List PyValue) : List Cell :=
  vals.map (encodeValue readable)

/-- A value as reconstructed by `_load_values`: either a cell passed through,
or a container of (trimmed) strings parsed from a structural token. -/
inductive Decoded
  | dStr (s : PyStr)
  | dInt (n : Int)
  | dFloat (f : Nat)
  | dDate (d : Nat)
  | dList (xs : List PyStr)
  | dTuple (xs : List PyStr)
  | dDict (kvs : List (PyStr × PyStr))
  deriving DecidableEq

/-- `value[1:-2].replace("\'", "").replace('\"', "").split(',')`
(`_load_values`, lines 332/336/340). -/
def tokenBody (s : PyStr) : List PyStr :=
  pySplit ',' (pyReplaceDel '\"' (pyReplaceDel '\'' (pySlice1neg2 s)))

/-- Python `result[key] = value`: insertion-ordered dict assignment
(overwrite in place if the key exists, else append). -/
def dictAssign (d : List (PyStr × PyStr)) (k v : PyStr) : List (PyStr × PyStr) :=
  if d.any (fun p => p.1 = k) then d.map (fun p => if p.1 = k then (p.1, v) else p)
  else d ++ [(k, v)]

/-- The mapping-token loop of `_load_values` (lines 341-349):
`key, value = pair.split(":")` — `none` models the `ValueError` Python
raises when the split does not produce exactly two parts — then
`result[key.strip()] = value.strip()`. -/
def decodePairs : List PyStr → List (PyStr × PyStr) → Option (List (PyStr × PyStr))
  | [], acc => some acc
  | pair :: rest, acc =>
    match pySplit ':' pair with
    | [key, value] => decodePairs rest (dictAssign acc (pyStrip key) (pyStrip value))
    | _ => none

/-- Per-cell decoding of `_load_values` (lines 328-349): strings starting
with `[` / `(` / `\x7b` are parsed as list / tuple / dict tokens, all other
cells are left unchanged.  `none` models a raised `ValueError`. -/
def decodeCell : Cell → Option Decoded
  | .cStr s =>
    match s with
    | '[' :: _ => some (.dList ((tokenBody s).map pyStrip))
    | '(' :: _ => some (.dTuple ((tokenBody s).map pyStrip))
    | '\x7b' :: _ => (decodePairs (tokenBody s) []).map Decoded.dDict
    | _ => some (.dStr s)
  | .cInt n => some (.dInt n)
  | .cFloat f => some (.dFloat f)
  | .cDate d => some (.dDate d)

/-- One row of `_load_values`: every cell decoded in order; `none` when a
cell raises. -/
def decodeRow : List Cell → Option (List Decoded)
  | [] => some []
  | c :: rest =>
    match decodeCell c, decodeRow rest with
    | some d, some ds => some (d :: ds)
    | _, _ => none

/-- Native pass-through scalars (`str`, `int`, `float`, `datetime`) as the
code checks with `type(value) not in [str, int, float, datetime.datetime]`. -/
def isScalar : PyValue → Bool
  | .str _ => true
  | .int _ => true
  | .float _ => true
  | .datetime _ => true
  | _ => false

/-- The decoded form a native scalar should load back as, when it round-trips
unchanged. -/
def scalarDecoded : PyValue → Decoded
  | .str s => .dStr s
  | .int n => .dInt n
  | .float f => .dFloat f
  | .datetime d => .dDate d
  | _ => .dStr []

/-! ## Schema extraction and session construction (`Spreadsheet.__init__`) -/

/-- A bound class descriptor, as much of it as
`class_identifier.__init__.__code__` exposes: the declared `__init__`
parameter names after the leading `self`, and the additional local variable
names of the `__init__` body (CPython's `co_varnames` lists the argument
names first, then the other locals). -/
structure ClassDesc where
  params : List String
  localVars : List String

/-- `class_identifier.__init__.__code__.co_varnames` for a class whose
`__init__` takes `self` first: `self`, the remaining parameters in
declaration order, then the body's local variable names. -/
def coVarnames (cd : ClassDesc) : List String :=
  "self" :: (cd.params ++ cd.localVars)

/-- `co_varnames[1::]` — the derived attribute list (line 115). -/
def extractAttrs (cd : ClassDesc) : List String :=
  (coVarnames cd).drop 1

/-- The state `__init__` leaves behind: the stored target path and the
derived attribute names. -/
structure Session where
  file_name : String
  class_attributes : List String
  deriving DecidableEq

/-- Python `str.endswith(suffix)`. -/
def pyEndsWith (s suffix : String) : Bool :=
  suffix.data.isSuffixOf s.data

/-- `Spreadsheet.__init__` (lines 101-117): stores `file_name` verbatim
first; the `.xlsx`-appending normalization reassigns only the local
variable afterwards (mirrored by the unused `let`); then derives the
attribute list and raises `ValueError` when it has more than 51 entries. -/
def sessionInit (file_name : String) (class_identifier : Option ClassDesc) :
    Except String Session :=
  let self_file_name := file_name
  let _file_name := if pyEndsWith file_name ".xlsx" then file_name else file_name ++ ".xlsx"
  match class_identifier with
  | some cd =>
    let attrs := extractAttrs cd
    if attrs.length > 51 then
      .error "Provided class has more than 51 attributes"
    else
      .ok { file_name := self_file_name, class_attributes := attrs }
  | none => .ok { file_name := self_file_name, class_attributes := [] }

/-- `__exit__` on a clean exit saves the workbook to `self.file_name`
(line 144): the path actually written. -/
def exitSavePath (s : Session) : String :=
  s.file_name

/-! ## Cell labels (`_add_row_to_spreadsheet`, lines 178-187) -/

/-- The column part of the label for 0-based column `i`:
`column_identifier = 65 + i`; `== 91` gives `"AA"`, `> 91` gives
`"A" + chr(column_identifier - 26)`, otherwise `chr(column_identifier)`. -/
def columnPart (i : Nat) : String :=
  let column_identifier := 65 + i
  if column_identifier = 91 then "AA"
  else if column_identifier > 91 then "A" ++ String.singleton (Char.ofNat (column_identifier - 26))
  else String.singleton (Char.ofNat column_identifier)

/-- The full cell label (`f"AA\x7brow\x7d"` and friends): column part
followed by the row number. -/
def cellLabel (i row : Nat) : String :=
  columnPart i ++ toString row

/-! ## `store` (lines 292-316) -/

/-- An argument element as `store`'s type checks see it: either an instance
of the bound class (carrying its attribute values in `class_attributes`
order, as `_get_values_from_instance` reads them) or an object of the wrong
type. -/
inductive Elem
  | good (vals : List PyValue)
  | bad

/-- One positional argument of `store`: a single object, or an iterable of
objects that the code expands element-wise. -/
inductive StoreArg
  | single (e : Elem)
  | iter (es : List Elem)

/-- The inner loop over an iterable argument (lines 303-309): each element
is type-checked and written in turn; the first wrong-typed element raises,
keeping the rows already written.  Returns the rows written and whether the
loop raised. -/
def storeElems (readable : Bool) : List Elem → List (List Cell) × Bool
  | [] => ([], false)
  | .good vals :: rest =>
    let r := storeElems readable rest
    (encodeRow readable vals :: r.1, r.2)
  | .bad :: _ => ([], true)

/-- The loop over `store`'s positional arguments (lines 300-316). -/
def storeArgs (readable : Bool) : List StoreArg → List (List Cell) × Bool
  | [] => ([], false)
  | .single (.good vals) :: rest =>
    let r := storeArgs readable rest
    (encodeRow readable vals :: r.1, r.2)
  | .single .bad :: _ => ([], true)
  | .iter es :: rest =>
    let r := storeElems readable es
    if r.2 then (r.1, true)
    else
      let r2 := storeArgs readable rest
      (r.1 ++ r2.1, r2.2)

/-- `store`: the header row (the attribute names, written before any type
check, line 296) followed by the data rows; the flag records whether the
call raised `ValueError` instead of returning normally. -/
def storeCall (s : Session) (readable : Bool) (args : List StoreArg) :
    List (List Cell) × Bool :=
  let header := encodeRow false (s.class_attributes.map (fun a => .str a.data))
  let r := storeArgs readable args
  (header :: r.1, r.2)

/-- The elements of `store`'s arguments in the order the code visits them. -/
def flattenArgs : List StoreArg → List Elem
  | [] => []
  | .single e :: rest => e :: flattenArgs rest
  | .iter es :: rest => es ++ flattenArgs rest

/-- Whether an element fails the `isinstance` check. -/
def isBad : Elem → Bool
  | .bad => true
  | .good _ => false

/-- The attribute-value lists of the well-typed elements strictly before the
first wrong-typed one. -/
def goodVals (e : Elem) : List PyValue :=
  match e with
  | .good vals => vals
  | .bad => []

/-- Whether some element of the traversal fails the `isinstance` check. -/
def anyBad (es : List Elem) : Bool := es.any isBad

/-- The value lists of the well-typed elements strictly preceding the first
wrong-typed one. -/
def goodsBefore : List Elem → List (List PyValue)
  | [] => []
  | .good vals :: rest => vals :: goodsBefore rest
  | .bad :: _ => []

/-! ## Further definitions used by the claim statements -/

/-- Whether a value is safe from the load-time token sniffing: any
non-string, or a string not beginning with `[`, `(` or `\x7b`. -/
def strHeadOk : PyValue → Bool
  | .str (c :: _) => !(c = '[' || c = '(' || c = '\x7b')
  | _ => true

/-- What `repr` makes of a clean string (no quotes, no backslash, printable
ASCII): the text wrapped in single quotes, unescaped. -/
def quotedStr (s : PyStr) : PyStr := '\'' :: (s ++ ['\''])

/-- The quote removal decode applies:
`.replace("\'", "").replace('\"', "")`. -/
def dropQuotes (s : PyStr) : PyStr := pyReplaceDel '\"' (pyReplaceDel '\'' s)

/-- A string that survives the non-readable container codec unchanged:
printable ASCII free of commas, quote characters and backslashes (so its
`repr` is the unescaped single-quoted text), and already stripped. -/
def CleanStr (s : PyStr) : Prop :=
  (∀ c ∈ s, c ≠ ',' ∧ c ≠ '\'' ∧ c ≠ '\"' ∧ c ≠ '\\' ∧
    0x20 ≤ c.toNat ∧ c.toNat ≤ 0x7e) ∧ pyStrip s = s

/-- A string fit to be a mapping key or value: clean and also free of the
key/value separator. -/
def CleanKV (s : PyStr) : Prop :=
  (∀ c ∈ s, c ≠ ',' ∧ c ≠ '\'' ∧ c ≠ '\"' ∧ c ≠ ':' ∧ c ≠ '\\' ∧
    0x20 ≤ c.toNat ∧ c.toNat ≤ 0x7e) ∧ pyStrip s = s

instance (s : PyStr) : Decidable (CleanStr s) := by
  unfold CleanStr
  infer_instance

instance (s : PyStr) : Decidable (CleanKV s) := by
  unfold CleanKV
  infer_instance

/-- Apply `f` to the last element of a list only. -/
def mapLast (f : PyStr → PyStr) : List PyStr → List PyStr
  | [] => []
  | [s] => [f s]
  | s :: rest => s :: mapLast f rest

/-- What `split(',')` makes of a `", "`-joined list: every piece after the
first keeps the separating space. -/
def spaced : List PyStr → List PyStr
  | [] => []
  | s :: rest => s :: rest.map (fun t => ' ' :: t)

/-- The decimal rendering of a Python int (`str(n)`). -/
def intChars (n : Int) : PyStr := (toString n).data

/-- Truncate the last pair's value by one character (the decode-time fate of
a mapping whose final value rendering is unquoted). -/
def truncLastVal : List (PyStr × PyStr) → List (PyStr × PyStr)
  | [] => []
  | [p] => [(p.1, p.2.dropLast)]
  | p :: rest => p :: truncLastVal rest

/-- The ten decimal digit characters. -/
def digitChars : List Char := ['0', '1', '2', '3', '4', '5', '6', '7', '8', '9']

/-- A mapping segment splits on `":"` into a key part and a value part whose
strips are the given pair. -/
def SegSplits (seg : PyStr) (p : PyStr × PyStr) : Prop :=
  ∃ a b, pySplit ':' seg = [a, b] ∧ pyStrip a = p.1 ∧ pyStrip b = p.2

/-- Python `==` between a decoded string and an original value: true only
against the equal string. -/
def strEqPy (s : PyStr) : PyValue → Bool
  | .str t => s = t
  | _ => false

/-- Python `==` between lists of decoded strings and original elements. -/
def listEqPy (xs : List PyStr) (vs : List PyValue) : Bool :=
  xs.length = vs.length && (List.zip xs vs).all (fun p => strEqPy p.1 p.2)

/-- Python `==` between a decoded container and the original container,
ignoring the sequence-vs-tuple distinction as the claim directs: same
elements in order for sequences/tuples, same key/value pairs (as Python
dict equality, order-insensitive) for mappings. -/
def containerEqPy : Decoded → PyValue → Bool
  | .dList xs, .list vs => listEqPy xs vs
  | .dList xs, .tuple vs => listEqPy xs vs
  | .dTuple xs, .list vs => listEqPy xs vs
  | .dTuple xs, .tuple vs => listEqPy xs vs
  | .dDict kvs, .dict kvs2 =>
    kvs.length = kvs2.length &&
      kvs.all (fun p =>
        match kvs2.find? (fun q => strEqPy p.1 q.1) with
        | some q => strEqPy p.2 q.2
        | none => false)
  | _, _ => false

/-! ## Lemmas about `store`'s traversal -/

theorem goodsBefore_of_no_bad (es : List Elem) (h : anyBad es = false) :
    goodsBefore es = es.map goodVals := by
  induction es with
  | nil => rfl
  | cons e rest ih =>
    cases e with
    | good vals =>
      simp only [anyBad, List.any_cons, isBad, Bool.false_or] at h
      simp [goodsBefore, goodVals, ih h]
    | bad => simp [anyBad, List.any_cons, isBad] at h

theorem goodsBefore_append_of_no_bad (es l : List Elem) (h : anyBad es = false) :
    goodsBefore (es ++ l) = es.map goodVals ++ goodsBefore l := by
  induction es with
  | nil => rfl
  | cons e rest ih =>
    cases e with
    | good vals =>
      simp only [anyBad, List.any_cons, isBad, Bool.false_or] at h
      simp [goodsBefore, goodVals, ih h]
    | bad => simp [anyBad, List.any_cons, isBad] at h

theorem goodsBefore_append_of_bad (es l : List Elem) (h : anyBad es = true) :
    goodsBefore (es ++ l) = goodsBefore es := by
  induction es with
  | nil => simp [anyBad] at h
  | cons e rest ih =>
    cases e with
    | good vals =>
      simp only [anyBad, List.any_cons, isBad, Bool.false_or] at h
      simp [goodsBefore, ih h]
    | bad => simp [goodsBefore]

theorem storeElems_eq (readable : Bool) (es : List Elem) :
    storeElems readable es = ((goodsBefore es).map (encodeRow readable), anyBad es) := by
  induction es with
  | nil => rfl
  | cons e rest ih =>
    cases e with
    | good vals => simp [storeElems, goodsBefore, anyBad, isBad, ih, List.any_cons]
    | bad => simp [storeElems, goodsBefore, anyBad, isBad, List.any_cons]

theorem storeArgs_eq (readable : Bool) (args : List StoreArg) :
    storeArgs readable args =
      ((goodsBefore (flattenArgs args)).map (encodeRow readable),
        anyBad (flattenArgs args)) := by
  induction args with
  | nil => rfl
  | cons a rest ih =>
    cases a with
    | single e =>
      cases e with
      | good vals =>
        simp [storeArgs, flattenArgs, goodsBefore, anyBad, isBad, ih, List.any_cons]
      | bad =>
        simp [storeArgs, flattenArgs, goodsBefore, anyBad, isBad, List.any_cons]
    | iter es =>
      by_cases hb : anyBad es = true
      · simp [storeArgs, flattenArgs, storeElems_eq, hb,
          goodsBefore_append_of_bad es (flattenArgs rest) hb, anyBad, List.any_append,
          show es.any isBad = true from hb]
      · have hb' : anyBad es = false := by revert hb; cases anyBad es <;> simp
        simp [storeArgs, flattenArgs, storeElems_eq, hb', ih,
          goodsBefore_append_of_no_bad es (flattenArgs rest) hb',
          goodsBefore_of_no_bad es hb', anyBad, List.any_append,
          show es.any isBad = false from hb']

/-! ## Claim theorems (first group) -/

/-- C3: a `store` call containing a wrong-typed argument (or a wrong-typed
element of an iterable argument) raises `ValueError` on the first offending
instance and does not return normally; the header row (written before any
type check) and the rows of the well-typed instances preceding the offender
remain written and are not rolled back. -/
theorem claim_C3_type_mismatch (s : Session) (readable : Bool) (args : List StoreArg)
    (h : anyBad (flattenArgs args) = true) :
    (storeCall s readable args).2 = true ∧
    (storeCall s readable args).1 =
      encodeRow false (s.class_attributes.map (fun a => .str a.data)) ::
        (goodsBefore (flattenArgs args)).map (encodeRow readable) := by
  unfold storeCall
  rw [storeArgs_eq, h]
  exact ⟨rfl, rfl⟩

/-- Witness for C3: a concrete call with one well-typed instance, then a
wrong-typed one, then another well-typed one; only the header and the first
instance's row end up written, and the call raises. -/
theorem claim_C3_witness :
    (storeCall ⟨"users.xlsx", ["Name"]⟩ false
        [.single (.good [.str ['a']]), .single .bad, .single (.good [.str ['b']])]).2 = true ∧
    (storeCall ⟨"users.xlsx", ["Name"]⟩ false
        [.single (.good [.str ['a']]), .single .bad, .single (.good [.str ['b']])]).1 =
      [[Cell.cStr "Name".data], [Cell.cStr ['a']]] := by
  have h := claim_C3_type_mismatch ⟨"users.xlsx", ["Name"]⟩ false
    [.single (.good [.str ['a']]), .single .bad, .single (.good [.str ['b']])] (by decide)
  exact ⟨h.1, h.2.trans (by decide)⟩

/-- C4: with a bound class, session construction raises `ValueError` iff the
derived attribute list has more than 51 entries; with at most 51 it succeeds
and the session carries the attribute list derived once at construction. -/
theorem claim_C4_schema_ceiling (fn : String) (cd : ClassDesc) :
    ((extractAttrs cd).length > 51 →
      sessionInit fn (some cd) = .error "Provided class has more than 51 attributes") ∧
    ((extractAttrs cd).length ≤ 51 →
      sessionInit fn (some cd) = .ok ⟨fn, extractAttrs cd⟩) := by
  constructor
  · intro h
    simp [sessionInit, h]
  · intro h
    simp [sessionInit, Nat.not_lt.mpr h]

/-- Witness for C4: a 2-attribute class succeeds, a 52-attribute class
raises. -/
theorem claim_C4_witness :
    sessionInit "animals.xlsx" (some ⟨["name", "conservation_status"], []⟩) =
      .ok ⟨"animals.xlsx", ["name", "conservation_status"]⟩ ∧
    sessionInit "wide.xlsx" (some ⟨(List.range 52).map toString, []⟩) =
      .error "Provided class has more than 51 attributes" := by
  exact ⟨(claim_C4_schema_ceiling "animals.xlsx" ⟨["name", "conservation_status"], []⟩).2 (by decide),
    (claim_C4_schema_ceiling "wide.xlsx" ⟨(List.range 52).map toString, []⟩).1 (by decide)⟩

/-- C5: for 0-based column index `i ≤ 51` the column part of the cell label
is `chr(65+i)` for `i ≤ 25` and `"A" ++ chr(65+i-26)` for `26 ≤ i ≤ 51`,
with the anchors label(0)="A", label(25)="Z", label(26)="AA",
label(51)="AZ". -/
theorem claim_C5_column_labels (i row : Nat) (h : i ≤ 51) :
    cellLabel i row =
      (if i ≤ 25 then String.singleton (Char.ofNat (65 + i))
       else "A" ++ String.singleton (Char.ofNat (65 + i - 26))) ++ toString row ∧
    columnPart 0 = "A" ∧ columnPart 25 = "Z" ∧ columnPart 26 = "AA" ∧
    columnPart 51 = "AZ" := by
  refine ⟨?_, by decide, by decide, by decide, by decide⟩
  have H : ∀ j, j < 52 → columnPart j =
      (if j ≤ 25 then String.singleton (Char.ofNat (65 + j))
       else "A" ++ String.singleton (Char.ofNat (65 + j - 26))) := by decide
  unfold cellLabel
  rw [H i (by omega)]

/-- Witness for C5: the label for column 26, row 2 is "AA2". -/
theorem claim_C5_witness : cellLabel 26 2 = "AA2" ∧ columnPart 51 = "AZ" := by
  have h := claim_C5_column_labels 26 2 (by decide)
  exact ⟨h.1.trans (by decide), h.2.2.2.2⟩

/-- C9 counterexample: the derivation reads `co_varnames[1:]`, which lists
the `__init__` body's local variables after the parameters, so a class whose
constructor uses a local variable gets that name in its RecordShape — the
claim's "containing nothing else" fails. -/
theorem claim_C9_counterexample :
    extractAttrs ⟨["x"], ["tmp"]⟩ ≠ ["x"] := by decide

/-- C9 amended: the derived RecordShape is the declared constructor
parameter names in declaration order (excluding the implicit `self`)
followed by the constructor body's local variable names; when the
constructor declares no extra locals it is exactly the parameter names, and
repeated derivation is stable in names and length. -/
theorem claim_C9_amended (cd : ClassDesc) :
    extractAttrs cd = cd.params ++ cd.localVars ∧
    (cd.localVars = [] → extractAttrs cd = cd.params) ∧
    (extractAttrs cd).length = cd.params.length + cd.localVars.length := by
  refine ⟨rfl, ?_, ?_⟩
  · intro h
    simp [extractAttrs, coVarnames, h]
  · simp [extractAttrs, coVarnames]

/-- Witness for C9 amended: a locals-free two-parameter class derives exactly
its parameter names. -/
theorem claim_C9_amended_witness :
    extractAttrs ⟨["name", "conservation_status"], []⟩ = ["name", "conservation_status"] :=
  (claim_C9_amended ⟨["name", "conservation_status"], []⟩).2.1 rfl

/-- C10: the session's stored target path is the constructor argument
verbatim — the `.xlsx`-appending normalization only reassigns a local after
`self.file_name` is set — so a clean scoped exit saves to exactly the path
the caller passed, extension or not. -/
theorem claim_C10_verbatim_path (fn : String) (cls : Option ClassDesc) (s : Session)
    (h : sessionInit fn cls = .ok s) : exitSavePath s = fn := by
  cases cls with
  | none =>
    simp only [sessionInit] at h
    cases h
    rfl
  | some cd =>
    by_cases hgt : (extractAttrs cd).length > 51
    · simp [sessionInit, hgt] at h
    · simp only [sessionInit] at h
      rw [if_neg hgt] at h
      cases h
      rfl

/-- Witness for C10: a path with no `.xlsx` extension is saved verbatim. -/
theorem claim_C10_witness :
    exitSavePath ⟨"animals", []⟩ = "animals" ∧ pyEndsWith "animals" ".xlsx" = false := by
  refine ⟨claim_C10_verbatim_path "animals" none ⟨"animals", []⟩ ?_, by decide⟩
  simp [sessionInit]

/-! ## Decoding lemmas -/

/-- `split` never yields an empty list of pieces. -/
theorem pySplit_ne_nil (sep : Char) (s : PyStr) : pySplit sep s ≠ [] := by
  cases s with
  | nil => simp [pySplit]
  | cons c rest =>
    unfold pySplit
    by_cases h : c = sep
    · simp [h]
    · simp only [if_neg h]
      split <;> simp

/-- A string cell whose first character is none of the three token markers is
returned unchanged by `_load_values`. -/
theorem decodeCell_plain (c : Char) (t : PyStr)
    (h1 : c ≠ '[') (h2 : c ≠ '(') (h3 : c ≠ '\x7b') :
    decodeCell (.cStr (c :: t)) = some (.dStr (c :: t)) := by
  unfold decodeCell
  split <;> try simp_all
  rename_i heq
  subst heq
  split <;> simp_all

/-- An accumulating fold of appends is the flattened list of rendered
pieces. -/
theorem foldl_append_eq {α : Type} (f : α → PyStr) (l : List α) (acc : PyStr) :
    l.foldl (fun a x => a ++ f x) acc = acc ++ (l.map f).flatten := by
  induction l generalizing acc with
  | nil => simp
  | cons x rest ih => simp [List.foldl_cons, ih, List.append_assoc]

/-- The readable dict rendering, entry by entry. -/
theorem flattenedDict_eq (kvs : List (PyValue × PyValue)) :
    flattenedDict kvs =
      (kvs.map (fun p => '-' :: ' ' :: (pyStrOf p.1 ++ ':' :: ' ' :: (pyStrOf p.2 ++ ['\n'])))).flatten := by
  unfold flattenedDict
  rw [foldl_append_eq]
  rfl

/-- The readable iterable rendering, element by element. -/
theorem flattenedIter_eq (xs : List PyValue) :
    flattenedIter xs = (xs.map (fun x => '-' :: ' ' :: (pyStrOf x ++ ['\n']))).flatten := by
  unfold flattenedIter
  rw [foldl_append_eq]
  rfl

/-- A readable dict rendering decodes to itself: it is empty or starts with
`'-'`, never with a token marker. -/
theorem decodeCell_flattenedDict (kvs : List (PyValue × PyValue)) :
    decodeCell (.cStr (flattenedDict kvs)) = some (.dStr (flattenedDict kvs)) := by
  cases kvs with
  | nil => rfl
  | cons p rest =>
    have h : flattenedDict (p :: rest) =
        '-' :: (' ' :: (pyStrOf p.1 ++ ':' :: ' ' :: (pyStrOf p.2 ++ ['\n'])) ++
          (rest.map (fun q => '-' :: ' ' :: (pyStrOf q.1 ++ ':' :: ' ' :: (pyStrOf q.2 ++ ['\n'])))).flatten) := by
      rw [flattenedDict_eq]
      simp
    rw [h]
    exact decodeCell_plain '-' _ (by decide) (by decide) (by decide)

/-- A readable iterable rendering decodes to itself. -/
theorem decodeCell_flattenedIter (xs : List PyValue) :
    decodeCell (.cStr (flattenedIter xs)) = some (.dStr (flattenedIter xs)) := by
  cases xs with
  | nil => rfl
  | cons x rest =>
    have h : flattenedIter (x :: rest) =
        '-' :: (' ' :: (pyStrOf x ++ ['\n']) ++
          (rest.map (fun y => '-' :: ' ' :: (pyStrOf y ++ ['\n']))).flatten) := by
      rw [flattenedIter_eq]
      simp
    rw [h]
    exact decodeCell_plain '-' _ (by decide) (by decide) (by decide)

/-- C7: with `readable=True` a mapping is stored as the concatenation, in
iteration order, of one `"- key: value\n"` line per entry, and a
non-string, non-mapping iterable as one `"- element\n"` line per element;
loading such a cell yields only that string, never a container. -/
theorem claim_C7_readable_rendering (kvs : List (PyValue × PyValue)) (xs : List PyValue) :
    encodeValue true (.dict kvs) =
      .cStr ((kvs.map (fun p => '-' :: ' ' :: (pyStrOf p.1 ++ ':' :: ' ' :: (pyStrOf p.2 ++ ['\n'])))).flatten) ∧
    encodeValue true (.list xs) =
      .cStr ((xs.map (fun x => '-' :: ' ' :: (pyStrOf x ++ ['\n']))).flatten) ∧
    encodeValue true (.tuple xs) =
      .cStr ((xs.map (fun x => '-' :: ' ' :: (pyStrOf x ++ ['\n']))).flatten) ∧
    decodeCell (encodeValue true (.dict kvs)) = some (.dStr (flattenedDict kvs)) ∧
    decodeCell (encodeValue true (.list xs)) = some (.dStr (flattenedIter xs)) ∧
    decodeCell (encodeValue true (.tuple xs)) = some (.dStr (flattenedIter xs)) := by
  refine ⟨?_, ?_, ?_, ?_, ?_, ?_⟩
  · show Cell.cStr (flattenedDict kvs) = _
    rw [flattenedDict_eq]
  · show Cell.cStr (flattenedIter xs) = _
    rw [flattenedIter_eq]
  · show Cell.cStr (flattenedIter xs) = _
    rw [flattenedIter_eq]
  · exact decodeCell_flattenedDict kvs
  · exact decodeCell_flattenedIter xs
  · exact decodeCell_flattenedIter xs

/-- C1 counterexample: a native-scalar attribute can fail to round-trip — a
string beginning with `'['` is re-parsed as a list token on load, so the
reconstructed value is a list of strings, not the original string. -/
theorem claim_C1_counterexample :
    isScalar (.str ['[', 'a']) = true ∧
    decodeRow (encodeRow false [.str ['[', 'a']]) = some [.dList [[]]] ∧
    Decoded.dList [[]] ≠ scalarDecoded (.str ['[', 'a']) := by decide

/-- C1 amended: an instance whose attribute values are all native scalars
(string, integer, float, date-time) round-trips through store and load with
identical attribute values in RecordShape order, provided no string value
begins with one of the token markers `[`, `(`, `\x7b`. -/
theorem claim_C1_scalar_roundtrip (readable : Bool) (vals : List PyValue)
    (h : ∀ v ∈ vals, isScalar v = true ∧ strHeadOk v = true) :
    decodeRow (encodeRow readable vals) = some (vals.map scalarDecoded) := by
  induction vals with
  | nil => rfl
  | cons v rest ih =>
    have hv := h v (List.mem_cons_self _ _)
    have hrest := ih (fun x hx => h x (List.mem_cons_of_mem _ hx))
    have hcell : decodeCell (encodeValue readable v) = some (scalarDecoded v) := by
      cases v with
      | str s =>
        cases s with
        | nil => rfl
        | cons c t =>
          have hh := hv.2
          simp only [strHeadOk, Bool.not_eq_true', Bool.or_eq_false_iff,
            decide_eq_false_iff_not] at hh
          exact decodeCell_plain c t hh.1.1 hh.1.2 hh.2
      | int n => rfl
      | float f => rfl
      | datetime d => rfl
      | list ys => simp [isScalar] at hv
      | tuple ys => simp [isScalar] at hv
      | dict ps => simp [isScalar] at hv
    simp only [encodeRow, List.map_cons] at *
    simp only [decodeRow, hcell, hrest]

/-- Witness for C1 amended: a concrete all-scalar row round-trips. -/
theorem claim_C1_witness :
    decodeRow (encodeRow false
        [.str "Leopard Gecko".data, .int 20, .float 0, .datetime 0]) =
      some [.dStr "Leopard Gecko".data, .dInt 20, .dFloat 0, .dDate 0] := by
  have h := claim_C1_scalar_roundtrip false
    [.str "Leopard Gecko".data, .int 20, .float 0, .datetime 0] (by decide)
  exact h.trans (by decide)

/-- C8 counterexample: decoding the malformed mapping token `"\x7ba\x7d"`
(one segment, no key/value separator) raises a `ValueError` — modelled as
`none` — rather than returning a best-effort partial parse. -/
theorem claim_C8_counterexample :
    decodeCell (.cStr ['\x7b', 'a', '\x7d']) = none := by decide

/-- The mapping-token loop succeeds exactly when every comma-segment splits
on `":"` into exactly two parts. -/
theorem decodePairs_isSome (segs : List PyStr) :
    ∀ acc, (decodePairs segs acc).isSome = true ↔
      ∀ seg ∈ segs, (pySplit ':' seg).length = 2 := by
  induction segs with
  | nil => intro acc; simp [decodePairs]
  | cons pair rest ih =>
    intro acc
    have hbad : ∀ l, l ≠ [] → (∀ k v, l ≠ [k, v]) → pySplit ':' pair = l →
        ((decodePairs (pair :: rest) acc).isSome = true ↔
          ∀ seg ∈ pair :: rest, (pySplit ':' seg).length = 2) := by
      intro l hne hne2 hsp
      have hlen : (pySplit ':' pair).length ≠ 2 := by
        rw [hsp]
        intro hl
        match l, hl with
        | [k, v], _ => exact hne2 k v rfl
      have hnone : decodePairs (pair :: rest) acc = none := by
        unfold decodePairs
        split
        · rename_i k v hkv
          exact absurd (hsp ▸ hkv) (fun hh => hne2 k v hh)
        · rfl
      rw [hnone]
      simp only [Option.isSome_none, Bool.false_eq_true, false_iff]
      intro hall
      exact hlen (hall pair (List.mem_cons_self _ _))
    rcases hsp : pySplit ':' pair with _ | ⟨k, _ | ⟨v, _ | ⟨w, l⟩⟩⟩
    · exact absurd hsp (pySplit_ne_nil ':' pair)
    · exact hbad [k] (by simp) (by intro a b h; cases h) hsp
    · simp only [decodePairs, hsp]
      rw [ih]
      constructor
      · intro h seg hseg
        rcases List.mem_cons.mp hseg with rfl | hm
        · rw [hsp]; rfl
        · exact h seg hm
      · intro h seg hseg
        exact h seg (List.mem_cons_of_mem _ hseg)
    · exact hbad (k :: v :: w :: l) (by simp) (by intro a b h; simp at h) hsp

/-- C8 amended: decoding a cell beginning with `[` or `(` never raises (a
best-effort list/tuple parse is always returned), and decoding a cell
beginning with `\x7b` succeeds iff every comma-segment of its processed body
splits on `":"` into exactly two parts — a segment with no separator, or
more than one, makes the tuple-unpacking raise `ValueError`. -/
theorem claim_C8_partial_parse :
    (∀ s : PyStr, (decodeCell (.cStr ('[' :: s))).isSome = true) ∧
    (∀ s : PyStr, (decodeCell (.cStr ('(' :: s))).isSome = true) ∧
    (∀ s : PyStr, (decodeCell (.cStr ('\x7b' :: s))).isSome = true ↔
      ∀ seg ∈ tokenBody ('\x7b' :: s), (pySplit ':' seg).length = 2) := by
  refine ⟨fun s => rfl, fun s => rfl, fun s => ?_⟩
  show ((decodePairs (tokenBody ('\x7b' :: s)) []).map Decoded.dDict).isSome = true ↔ _
  rw [show ((decodePairs (tokenBody ('\x7b' :: s)) []).map Decoded.dDict).isSome
      = (decodePairs (tokenBody ('\x7b' :: s)) []).isSome from by
    cases decodePairs (tokenBody ('\x7b' :: s)) [] <;> rfl]
  exact decodePairs_isSome _ []

/-! ## String lemmas for the non-readable round-trip -/

theorem pySplit_of_not_mem (sep : Char) (s : PyStr) (h : sep ∉ s) :
    pySplit sep s = [s] := by
  induction s with
  | nil => rfl
  | cons c rest ih =>
    have hc : c ≠ sep := fun hh => h (hh ▸ List.mem_cons_self _ _)
    have hr : sep ∉ rest := fun hh => h (List.mem_cons_of_mem _ hh)
    unfold pySplit
    rw [if_neg hc, ih hr]

theorem pySplit_cons (sep c : Char) (rest : PyStr) :
    pySplit sep (c :: rest) =
      if c = sep then [] :: pySplit sep rest
      else match pySplit sep rest with
        | [] => [[c]]
        | h :: t => (c :: h) :: t := rfl

theorem pySplit_append (sep : Char) (a b : PyStr) (h : sep ∉ a) :
    pySplit sep (a ++ sep :: b) = a :: pySplit sep b := by
  induction a with
  | nil =>
    show pySplit sep (sep :: b) = [] :: pySplit sep b
    rw [pySplit_cons, if_pos rfl]
  | cons c a' ih =>
    have hc : c ≠ sep := fun hh => h (hh ▸ List.mem_cons_self _ _)
    have ha : sep ∉ a' := fun hh => h (List.mem_cons_of_mem _ hh)
    show pySplit sep (c :: (a' ++ sep :: b)) = (c :: a') :: pySplit sep b
    rw [pySplit_cons, if_neg hc, ih ha]

theorem pyStrip_cons_space (c : Char) (s : PyStr) (h : isPySpace c = true) :
    pyStrip (c :: s) = pyStrip s := by
  unfold pyStrip
  rw [List.dropWhile_cons_of_pos h]

/-- `split(',')` of a `", "`-joined list of comma-free pieces. -/
theorem pySplit_joinComma (ss : List PyStr) (hne : ss ≠ [])
    (h : ∀ s ∈ ss, ',' ∉ s) : pySplit ',' (joinComma ss) = spaced ss := by
  induction ss with
  | nil => exact absurd rfl hne
  | cons s rest ih =>
    cases rest with
    | nil =>
      show pySplit ',' s = [s]
      exact pySplit_of_not_mem ',' s (h s (List.mem_cons_self _ _))
    | cons s2 rest' =>
      have hs : ',' ∉ s := h s (List.mem_cons_self _ _)
      have hrest : ∀ t ∈ s2 :: rest', ',' ∉ t := fun t ht => h t (List.mem_cons_of_mem _ ht)
      have hJ := ih (by simp) hrest
      show pySplit ',' (s ++ ',' :: ' ' :: joinComma (s2 :: rest')) = _
      rw [pySplit_append ',' s _ hs]
      have hsp : pySplit ',' (' ' :: joinComma (s2 :: rest')) =
          (' ' :: s2) :: rest'.map (fun t => ' ' :: t) := by
        rw [pySplit_cons, if_neg (by decide), hJ]
        rfl
      rw [hsp]
      rfl

theorem map_pyStrip_spaced (ss : List PyStr) (h : ∀ s ∈ ss, pyStrip s = s) :
    (spaced ss).map pyStrip = ss := by
  cases ss with
  | nil => rfl
  | cons s rest =>
    show pyStrip s :: (rest.map (fun t => ' ' :: t)).map pyStrip = s :: rest
    rw [h s (List.mem_cons_self _ _)]
    congr 1
    rw [List.map_map]
    have : ∀ t ∈ rest, (pyStrip ∘ fun t => ' ' :: t) t = id t := by
      intro t ht
      show pyStrip (' ' :: t) = t
      rw [pyStrip_cons_space ' ' t (by decide)]
      exact h t (List.mem_cons_of_mem _ ht)
    rw [List.map_congr_left this, List.map_id]

theorem joinComma_cons₂_ne_nil (a b : PyStr) (l : List PyStr) :
    joinComma (a :: b :: l) ≠ [] := by
  show a ++ ',' :: ' ' :: joinComma (b :: l) ≠ []
  simp

theorem joinComma_cons (s : PyStr) (r : List PyStr) (hr : r ≠ []) :
    joinComma (s :: r) = s ++ ',' :: ' ' :: joinComma r := by
  cases r with
  | nil => exact absurd rfl hr
  | cons a l => rfl

theorem mapLast_cons (f : PyStr → PyStr) (s : PyStr) (r : List PyStr) (hr : r ≠ []) :
    mapLast f (s :: r) = s :: mapLast f r := by
  cases r with
  | nil => exact absurd rfl hr
  | cons a l => rfl

theorem mapLast_ne_nil (f : PyStr → PyStr) (r : List PyStr) (hr : r ≠ []) :
    mapLast f r ≠ [] := by
  cases r with
  | nil => exact absurd rfl hr
  | cons a l =>
    cases l with
    | nil => simp [mapLast]
    | cons b l' => simp [mapLast]

/-- Dropping the body's final character maps through the `", "`-join onto
the last piece, when the last piece is nonempty. -/
theorem joinComma_dropLast (ss : List PyStr) (hne : ss ≠ [])
    (hlast : ss.getLast hne ≠ []) :
    (joinComma ss).dropLast = joinComma (mapLast List.dropLast ss) := by
  induction ss with
  | nil => exact absurd rfl hne
  | cons s rest ih =>
    cases rest with
    | nil => rfl
    | cons s2 rest' =>
      have hJ : joinComma (s2 :: rest') ≠ [] := by
        cases rest' with
        | nil =>
          have : (s :: [s2]).getLast (by simp) = s2 := by simp
          rw [this] at hlast
          exact hlast
        | cons s3 rest'' => exact joinComma_cons₂_ne_nil s2 s3 rest''
      obtain ⟨j, J', hJ'⟩ := List.exists_cons_of_ne_nil hJ
      have hlast' : (s2 :: rest').getLast (by simp) ≠ [] := by
        have : (s :: s2 :: rest').getLast (by simp) = (s2 :: rest').getLast (by simp) :=
          List.getLast_cons (by simp)
        rw [this] at hlast
        exact hlast
      have hrec := ih (by simp) hlast'
      show (s ++ ',' :: ' ' :: joinComma (s2 :: rest')).dropLast =
        joinComma (mapLast List.dropLast (s :: s2 :: rest'))
      rw [List.dropLast_append_cons]
      rw [hJ', List.dropLast_cons₂, List.dropLast_cons₂, ← hJ']
      rw [hrec]
      rw [mapLast_cons List.dropLast s (s2 :: rest') (by simp),
        joinComma_cons s _ (mapLast_ne_nil List.dropLast (s2 :: rest') (by simp))]

theorem dropQuotes_append (a b : PyStr) :
    dropQuotes (a ++ b) = dropQuotes a ++ dropQuotes b := by
  unfold dropQuotes pyReplaceDel
  rw [List.filter_append, List.filter_append]

theorem dropQuotes_cons_keep (c : Char) (s : PyStr)
    (h1 : c ≠ '\'') (h2 : c ≠ '\"') :
    dropQuotes (c :: s) = c :: dropQuotes s := by
  unfold dropQuotes pyReplaceDel
  rw [List.filter_cons_of_pos (by simpa using h1), List.filter_cons_of_pos (by simpa using h2)]

theorem dropQuotes_cons_quote (s : PyStr) :
    dropQuotes ('\'' :: s) = dropQuotes s := by
  unfold dropQuotes pyReplaceDel
  rw [List.filter_cons_of_neg (by decide)]

theorem dropQuotes_of_clean (s : PyStr) (h : ∀ c ∈ s, c ≠ '\'' ∧ c ≠ '\"') :
    dropQuotes s = s := by
  induction s with
  | nil => rfl
  | cons c rest ih =>
    have hc := h c (List.mem_cons_self _ _)
    rw [dropQuotes_cons_keep c rest hc.1 hc.2, ih (fun d hd => h d (List.mem_cons_of_mem _ hd))]

theorem dropQuotes_quotedStr (s : PyStr) (h : ∀ c ∈ s, c ≠ '\'' ∧ c ≠ '\"') :
    dropQuotes (quotedStr s) = s := by
  unfold quotedStr
  rw [dropQuotes_cons_quote, dropQuotes_append, dropQuotes_of_clean s h,
    show dropQuotes ['\''] = [] from rfl, List.append_nil]

theorem quotedStr_dropLast (s : PyStr) : (quotedStr s).dropLast = '\'' :: s := by
  unfold quotedStr
  rw [show '\'' :: (s ++ ['\'']) = ('\'' :: s) ++ ['\''] from rfl, List.dropLast_concat]

/-- Quote removal distributes over the `", "`-join. -/
theorem dropQuotes_joinComma (ss : List PyStr) :
    dropQuotes (joinComma ss) = joinComma (ss.map dropQuotes) := by
  induction ss with
  | nil => rfl
  | cons s rest ih =>
    cases rest with
    | nil => rfl
    | cons s2 rest' =>
      show dropQuotes (s ++ ',' :: ' ' :: joinComma (s2 :: rest')) = _
      rw [dropQuotes_append, dropQuotes_cons_keep ',' _ (by decide) (by decide),
        dropQuotes_cons_keep ' ' _ (by decide) (by decide), ih]
      rfl

/-- After dropping the body's final quote, quote removal recovers the plain
pieces from their quoted forms. -/
theorem processed_quotedStr (xs : List PyStr)
    (h : ∀ s ∈ xs, ∀ c ∈ s, c ≠ '\'' ∧ c ≠ '\"') :
    (mapLast List.dropLast (xs.map quotedStr)).map dropQuotes = xs := by
  induction xs with
  | nil => rfl
  | cons x rest ih =>
    cases rest with
    | nil =>
      show [dropQuotes ((quotedStr x).dropLast)] = [x]
      rw [quotedStr_dropLast, dropQuotes_cons_quote,
        dropQuotes_of_clean x (h x (List.mem_cons_self _ _))]
    | cons y rest' =>
      show ((mapLast List.dropLast (quotedStr x :: (y :: rest').map quotedStr)).map dropQuotes) = _
      rw [mapLast_cons List.dropLast _ _ (by simp)]
      show dropQuotes (quotedStr x) :: _ = x :: _
      rw [dropQuotes_quotedStr x (h x (List.mem_cons_self _ _))]
      congr 1
      exact ih (fun s hs => h s (List.mem_cons_of_mem _ hs))

/-- On a printable-ASCII character that is neither the quote nor the
backslash, the `repr` escape is the identity. -/
theorem reprEscapeChar_plain (c : Char) (h1 : c ≠ '\'') (h2 : c ≠ '\\')
    (h3 : 0x20 ≤ c.toNat) (h4 : c.toNat ≤ 0x7e) :
    reprEscapeChar '\'' c = [c] := by
  have ht : c ≠ '\t' := by
    intro hh
    rw [hh] at h3
    exact absurd h3 (by decide)
  have hn : c ≠ '\n' := by
    intro hh
    rw [hh] at h3
    exact absurd h3 (by decide)
  have hr : c ≠ '\r' := by
    intro hh
    rw [hh] at h3
    exact absurd h3 (by decide)
  have hc : ¬(c.toNat < 0x20 ∨ c.toNat = 0x7f) := not_or.mpr ⟨by omega, by omega⟩
  unfold reprEscapeChar
  rw [if_neg (not_or.mpr ⟨h1, h2⟩), if_neg ht, if_neg hn, if_neg hr, if_neg hc]

/-- On a clean string the `repr` body escape is the identity. -/
theorem reprEscape_plain (s : PyStr)
    (h : ∀ c ∈ s, c ≠ '\'' ∧ c ≠ '\\' ∧ 0x20 ≤ c.toNat ∧ c.toNat ≤ 0x7e) :
    reprEscape '\'' s = s := by
  induction s with
  | nil => rfl
  | cons c rest ih =>
    have hc := h c (List.mem_cons_self _ _)
    show reprEscapeChar '\'' c ++ reprEscape '\'' rest = c :: rest
    rw [reprEscapeChar_plain c hc.1 hc.2.1 hc.2.2.1 hc.2.2.2,
      ih (fun d hd => h d (List.mem_cons_of_mem _ hd))]
    rfl

/-- `repr` of a clean string is the unescaped single-quoted text. -/
theorem pyReprStr_plain (s : PyStr)
    (h : ∀ c ∈ s, c ≠ '\'' ∧ c ≠ '\\' ∧ 0x20 ≤ c.toNat ∧ c.toNat ≤ 0x7e) :
    pyReprStr s = quotedStr s := by
  unfold pyReprStr
  rw [if_neg (fun hin => (h '\'' hin.1).1 rfl), reprEscape_plain s h]
  rfl

/-- The escape-identity facts a `CleanStr` hypothesis provides. -/
theorem cleanStr_plain (s : PyStr) (h : CleanStr s) :
    ∀ c ∈ s, c ≠ '\'' ∧ c ≠ '\\' ∧ 0x20 ≤ c.toNat ∧ c.toNat ≤ 0x7e := by
  intro c hc
  have hh := h.1 c hc
  exact ⟨hh.2.1, hh.2.2.2.1, hh.2.2.2.2.1, hh.2.2.2.2.2⟩

/-- The escape-identity facts a `CleanKV` hypothesis provides. -/
theorem cleanKV_plain (s : PyStr) (h : CleanKV s) :
    ∀ c ∈ s, c ≠ '\'' ∧ c ≠ '\\' ∧ 0x20 ≤ c.toNat ∧ c.toNat ≤ 0x7e := by
  intro c hc
  have hh := h.1 c hc
  exact ⟨hh.2.1, hh.2.2.2.2.1, hh.2.2.2.2.2.1, hh.2.2.2.2.2.2⟩

/-- `repr` of a list of clean Python strings, element by element. -/
theorem pyReprList_map_str (xs : List PyStr) (h : ∀ s ∈ xs, CleanStr s) :
    pyReprList (xs.map PyValue.str) = xs.map quotedStr := by
  induction xs with
  | nil => rfl
  | cons x rest ih =>
    show pyRepr (.str x) :: pyReprList (rest.map PyValue.str) = quotedStr x :: rest.map quotedStr
    rw [show pyRepr (.str x) = pyReprStr x from rfl,
      pyReprStr_plain x (cleanStr_plain x (h x (List.mem_cons_self _ _))),
      ih (fun s hs => h s (List.mem_cons_of_mem _ hs))]

/-- The token body of a bracketed, `", "`-joined rendering of clean quoted
strings, after per-piece stripping, is the original list of strings. -/
theorem tokenBody_container (o cl : Char) (xs : List PyStr) (hne : xs ≠ [])
    (hclean : ∀ s ∈ xs, CleanStr s) :
    (tokenBody (o :: (joinComma (xs.map quotedStr) ++ [cl]))).map pyStrip = xs := by
  have hmapne : xs.map quotedStr ≠ [] := by
    cases xs with
    | nil => exact absurd rfl hne
    | cons a l => simp
  have hlast : (xs.map quotedStr).getLast hmapne ≠ [] := by
    have hmem := List.getLast_mem hmapne
    obtain ⟨x, _, heq⟩ := List.mem_map.mp hmem
    rw [← heq]
    unfold quotedStr
    simp
  have hslice : pySlice1neg2 (o :: (joinComma (xs.map quotedStr) ++ [cl])) =
      (joinComma (xs.map quotedStr)).dropLast := by
    show (((joinComma (xs.map quotedStr) ++ [cl]).dropLast).dropLast) = _
    rw [List.dropLast_concat]
  unfold tokenBody
  rw [show pyReplaceDel '\"' (pyReplaceDel '\''
        (pySlice1neg2 (o :: (joinComma (xs.map quotedStr) ++ [cl])))) =
      dropQuotes (pySlice1neg2 (o :: (joinComma (xs.map quotedStr) ++ [cl]))) from rfl]
  rw [hslice, joinComma_dropLast _ hmapne hlast, dropQuotes_joinComma,
    processed_quotedStr xs (fun s hs c hc => ⟨((hclean s hs).1 c hc).2.1, ((hclean s hs).1 c hc).2.2.1⟩)]
  rw [pySplit_joinComma xs hne (fun s hs hc => ((hclean s hs).1 ',' hc).1 rfl)]
  exact map_pyStrip_spaced xs (fun s hs => (hclean s hs).2)

/-- Non-readable round-trip for a list of clean strings. -/
theorem roundtrip_list (xs : List PyStr) (hne : xs ≠ [])
    (hclean : ∀ s ∈ xs, CleanStr s) :
    decodeCell (encodeValue false (.list (xs.map PyValue.str))) = some (.dList xs) := by
  have henc : encodeValue false (.list (xs.map PyValue.str)) =
      .cStr ('[' :: (joinComma (xs.map quotedStr) ++ [']'])) := by
    show Cell.cStr (pyRepr (.list (xs.map PyValue.str))) = _
    rw [show pyRepr (.list (xs.map PyValue.str)) =
      '[' :: (joinComma (pyReprList (xs.map PyValue.str)) ++ [']']) from rfl]
    rw [pyReprList_map_str xs hclean]
  rw [henc]
  show some (Decoded.dList ((tokenBody ('[' :: (joinComma (xs.map quotedStr) ++ [']']))).map pyStrip)) = _
  rw [tokenBody_container '[' ']' xs hne hclean]

/-- Non-readable round-trip for a tuple of clean strings (the singleton
tuple's trailing-comma rendering included). -/
theorem roundtrip_tuple (xs : List PyStr) (hne : xs ≠ [])
    (hclean : ∀ s ∈ xs, CleanStr s) :
    decodeCell (encodeValue false (.tuple (xs.map PyValue.str))) = some (.dTuple xs) := by
  cases xs with
  | nil => exact absurd rfl hne
  | cons x rest =>
    cases rest with
    | nil =>
      have hx := hclean x (List.mem_cons_self _ _)
      have henc : encodeValue false (.tuple [PyValue.str x]) =
          .cStr ('(' :: (quotedStr x ++ [',', ')'])) := by
        show Cell.cStr (pyRepr (.tuple [PyValue.str x])) = _
        rw [show pyRepr (.tuple [PyValue.str x]) =
          '(' :: (pyRepr (.str x) ++ [',', ')']) from rfl,
          show pyRepr (.str x) = pyReprStr x from rfl,
          pyReprStr_plain x (cleanStr_plain x hx)]
      show decodeCell (encodeValue false (.tuple [PyValue.str x])) = some (Decoded.dTuple [x])
      rw [henc]
      show some (Decoded.dTuple ((tokenBody ('(' :: (quotedStr x ++ [',', ')']))).map pyStrip)) = _
      have hslice : pySlice1neg2 ('(' :: (quotedStr x ++ [',', ')'])) = quotedStr x := by
        show ((quotedStr x ++ [',', ')']).dropLast).dropLast = quotedStr x
        rw [show quotedStr x ++ [',', ')'] = (quotedStr x ++ [',']) ++ [')'] by simp,
          List.dropLast_concat, List.dropLast_concat]
      unfold tokenBody
      rw [show pyReplaceDel '\"' (pyReplaceDel '\''
            (pySlice1neg2 ('(' :: (quotedStr x ++ [',', ')'])))) =
          dropQuotes (pySlice1neg2 ('(' :: (quotedStr x ++ [',', ')']))) from rfl]
      rw [hslice, dropQuotes_quotedStr x (fun c hc => ⟨(hx.1 c hc).2.1, (hx.1 c hc).2.2.1⟩)]
      rw [pySplit_of_not_mem ',' x (fun hc => (hx.1 ',' hc).1 rfl)]
      show some (Decoded.dTuple [pyStrip x]) = _
      rw [hx.2]
    | cons y rest' =>
      have henc : encodeValue false (.tuple ((x :: y :: rest').map PyValue.str)) =
          .cStr ('(' :: (joinComma ((x :: y :: rest').map quotedStr) ++ [')'])) := by
        show Cell.cStr (pyRepr (.tuple ((x :: y :: rest').map PyValue.str))) = _
        rw [show pyRepr (.tuple ((x :: y :: rest').map PyValue.str)) =
          '(' :: (joinComma (pyReprList ((x :: y :: rest').map PyValue.str)) ++ [')']) from rfl]
        rw [pyReprList_map_str (x :: y :: rest') hclean]
      rw [henc]
      show some (Decoded.dTuple ((tokenBody
        ('(' :: (joinComma ((x :: y :: rest').map quotedStr) ++ [')']))).map pyStrip)) = _
      rw [tokenBody_container '(' ')' (x :: y :: rest') (by simp) hclean]

/-! ## The decimal rendering of integers: digit characters only -/

theorem digitChar_mem (k : Nat) (h : k < 10) : Nat.digitChar k ∈ digitChars := by
  interval_cases k <;> decide

theorem toDigitsCore_mem (fuel : Nat) :
    ∀ (n : Nat) (ds : List Char), (∀ c ∈ ds, c ∈ digitChars) →
      ∀ c ∈ Nat.toDigitsCore 10 fuel n ds, c ∈ digitChars := by
  induction fuel with
  | zero => intro n ds hds c hc; exact hds c hc
  | succ f ih =>
    intro n ds hds c hc
    simp only [Nat.toDigitsCore] at hc
    by_cases hz : n / 10 = 0
    · rw [if_pos hz] at hc
      rcases List.mem_cons.mp hc with rfl | hm
      · exact digitChar_mem _ (Nat.mod_lt _ (by omega))
      · exact hds c hm
    · rw [if_neg hz] at hc
      refine ih (n / 10) _ ?_ c hc
      intro d hd
      rcases List.mem_cons.mp hd with rfl | hm
      · exact digitChar_mem _ (Nat.mod_lt _ (by omega))
      · exact hds d hm

theorem toDigits_mem (n : Nat) : ∀ c ∈ Nat.toDigits 10 n, c ∈ digitChars := by
  intro c hc
  exact toDigitsCore_mem (n + 1) n [] (by simp) c hc

theorem toDigitsCore_ne_nil (fuel : Nat) :
    ∀ (n : Nat) (ds : List Char), ds ≠ [] → Nat.toDigitsCore 10 fuel n ds ≠ [] := by
  induction fuel with
  | zero => intro n ds hds; simpa [Nat.toDigitsCore] using hds
  | succ f ih =>
    intro n ds hds
    simp only [Nat.toDigitsCore]
    by_cases hz : n / 10 = 0
    · rw [if_pos hz]; simp
    · rw [if_neg hz]
      exact ih (n / 10) _ (by simp)

theorem toDigits_ne_nil (n : Nat) : Nat.toDigits 10 n ≠ [] := by
  show Nat.toDigitsCore 10 (n + 1) n [] ≠ []
  simp only [Nat.toDigitsCore]
  by_cases hz : n / 10 = 0
  · rw [if_pos hz]; simp
  · rw [if_neg hz]
    exact toDigitsCore_ne_nil n (n / 10) _ (by simp)

theorem intChars_mem (n : Int) : ∀ c ∈ intChars n, c ∈ '-' :: digitChars := by
  intro c hc
  cases n with
  | ofNat m =>
    have : intChars (.ofNat m) = Nat.toDigits 10 m := rfl
    rw [this] at hc
    exact List.mem_cons_of_mem _ (toDigits_mem m c hc)
  | negSucc m =>
    have : intChars (.negSucc m) = '-' :: Nat.toDigits 10 (m + 1) := by
      show (("-" ++ (m + 1).repr).data) = _
      rw [String.data_append]
      rfl
    rw [this] at hc
    rcases List.mem_cons.mp hc with rfl | hm
    · exact List.mem_cons_self _ _
    · exact List.mem_cons_of_mem _ (toDigits_mem (m + 1) c hm)

theorem intChars_ne_nil (n : Int) : intChars n ≠ [] := by
  cases n with
  | ofNat m =>
    show Nat.toDigits 10 m ≠ []
    exact toDigits_ne_nil m
  | negSucc m =>
    have : intChars (.negSucc m) = '-' :: Nat.toDigits 10 (m + 1) := by
      show (("-" ++ (m + 1).repr).data) = _
      rw [String.data_append]
      rfl
    rw [this]
    simp

theorem intChar_facts (c : Char) (h : c ∈ '-' :: digitChars) :
    c ≠ ',' ∧ c ≠ '\'' ∧ c ≠ '\"' ∧ c ≠ ':' ∧ isPySpace c = false := by
  fin_cases h <;> exact ⟨by decide, by decide, by decide, by decide, by decide⟩

theorem pyStrip_of_no_space (s : PyStr) (h : ∀ c ∈ s, isPySpace c = false) :
    pyStrip s = s := by
  unfold pyStrip
  have h1 : s.dropWhile isPySpace = s := by
    rw [List.dropWhile_eq_self_iff]
    intro hl
    simp only [List.get_eq_getElem]
    simp [h _ (List.getElem_mem hl)]
  have h2 : s.reverse.dropWhile isPySpace = s.reverse := by
    rw [List.dropWhile_eq_self_iff]
    intro hl
    have hlen : s.length - 1 < s.length := by
      simp only [List.length_reverse] at hl
      omega
    simp only [List.get_eq_getElem]
    simp [h _ (List.getElem_mem hlen)]
  rw [h1, h2, List.reverse_reverse]

/-! ## Mapping segments and the `decodePairs` loop -/

theorem segSplits_plain (k v : PyStr) (hk1 : ':' ∉ k) (hk2 : pyStrip k = k)
    (hv1 : ':' ∉ v) (hv2 : pyStrip v = v) :
    SegSplits (k ++ ':' :: ' ' :: v) (k, v) := by
  refine ⟨k, ' ' :: v, ?_, hk2, ?_⟩
  · rw [pySplit_append ':' k (' ' :: v) hk1,
      pySplit_of_not_mem ':' (' ' :: v) (by simpa using hv1)]
  · rw [pyStrip_cons_space ' ' v (by decide)]
    exact hv2

theorem segSplits_spaced (k v : PyStr) (hk1 : ':' ∉ k) (hk2 : pyStrip k = k)
    (hv1 : ':' ∉ v) (hv2 : pyStrip v = v) :
    SegSplits (' ' :: (k ++ ':' :: ' ' :: v)) (k, v) := by
  refine ⟨' ' :: k, ' ' :: v, ?_, ?_, ?_⟩
  · rw [show ' ' :: (k ++ ':' :: ' ' :: v) = (' ' :: k) ++ ':' :: (' ' :: v) from rfl,
      pySplit_append ':' (' ' :: k) (' ' :: v) (by simpa using hk1),
      pySplit_of_not_mem ':' (' ' :: v) (by simpa using hv1)]
  · rw [pyStrip_cons_space ' ' k (by decide)]
    exact hk2
  · rw [pyStrip_cons_space ' ' v (by decide)]
    exact hv2

theorem forall₂_segSplits (ps : List (PyStr × PyStr))
    (h : ∀ p ∈ ps, (':' ∉ p.1 ∧ pyStrip p.1 = p.1) ∧ (':' ∉ p.2 ∧ pyStrip p.2 = p.2)) :
    List.Forall₂ SegSplits (spaced (ps.map (fun p => p.1 ++ ':' :: ' ' :: p.2))) ps := by
  cases ps with
  | nil => exact List.Forall₂.nil
  | cons p rest =>
    have hp := h p (List.mem_cons_self _ _)
    refine List.Forall₂.cons
      (segSplits_plain p.1 p.2 hp.1.1 hp.1.2 hp.2.1 hp.2.2) ?_
    have haux : ∀ (l : List (PyStr × PyStr)),
        (∀ q ∈ l, (':' ∉ q.1 ∧ pyStrip q.1 = q.1) ∧ (':' ∉ q.2 ∧ pyStrip q.2 = q.2)) →
        List.Forall₂ SegSplits
          ((l.map (fun q => q.1 ++ ':' :: ' ' :: q.2)).map (fun t => ' ' :: t)) l := by
      intro l
      induction l with
      | nil => intro _; exact List.Forall₂.nil
      | cons q rest' ih =>
        intro hl
        have hq := hl q (List.mem_cons_self _ _)
        exact List.Forall₂.cons
          (segSplits_spaced q.1 q.2 hq.1.1 hq.1.2 hq.2.1 hq.2.2)
          (ih (fun r hr => hl r (List.mem_cons_of_mem _ hr)))
    exact haux rest (fun r hr => h r (List.mem_cons_of_mem _ hr))

/-- Feeding segments that each split into a key/value pair through the
mapping loop appends the pairs in order (fresh keys are appended, and all
keys here are fresh). -/
theorem decodePairs_of_forall₂ (segs : List PyStr) (ps : List (PyStr × PyStr))
    (h : List.Forall₂ SegSplits segs ps) :
    ∀ acc, (ps.map Prod.fst).Nodup → (∀ p ∈ ps, ∀ q ∈ acc, q.1 ≠ p.1) →
      decodePairs segs acc = some (acc ++ ps) := by
  induction h with
  | nil => intro acc _ _; simp [decodePairs]
  | @cons seg p segs' ps' hR htail ih =>
    intro acc hnodup hacc
    obtain ⟨a, b, hsp, ha, hb⟩ := hR
    have hstep : decodePairs (seg :: segs') acc =
        decodePairs segs' (dictAssign acc (pyStrip a) (pyStrip b)) := by
      show (match pySplit ':' seg with
        | [key, value] => decodePairs segs' (dictAssign acc (pyStrip key) (pyStrip value))
        | _ => none) = _
      rw [hsp]
    rw [hstep, ha, hb]
    have hcond : acc.any (fun q => q.1 = p.1) = false := by
      rw [List.any_eq_false]
      intro q hq
      simp only [decide_eq_true_eq]
      exact hacc p (List.mem_cons_self _ _) q hq
    have hassign : dictAssign acc p.1 p.2 = acc ++ [p] := by
      simp [dictAssign, hcond]
    rw [hassign]
    have hfresh : ∀ r ∈ ps', ∀ q ∈ acc ++ [p], q.1 ≠ r.1 := by
      intro r hr q hq
      rcases List.mem_append.mp hq with hq | hq
      · exact hacc r (List.mem_cons_of_mem _ hr) q hq
      · have hqp : q = p := by simpa using hq
        subst hqp
        intro hEq
        exact (List.nodup_cons.mp hnodup).1 (hEq ▸ List.mem_map_of_mem Prod.fst hr)
    rw [ih (acc ++ [p]) (List.nodup_cons.mp hnodup).2 hfresh, List.append_assoc]
    rfl

/-! ## Rendered mapping segments under the decode pipeline -/

theorem dropQuotes_segStr (k v : PyStr)
    (hk : ∀ c ∈ k, c ≠ '\'' ∧ c ≠ '\"') (hv : ∀ c ∈ v, c ≠ '\'' ∧ c ≠ '\"') :
    dropQuotes (quotedStr k ++ ':' :: ' ' :: quotedStr v) = k ++ ':' :: ' ' :: v := by
  rw [dropQuotes_append, dropQuotes_quotedStr k hk,
    dropQuotes_cons_keep ':' _ (by decide) (by decide),
    dropQuotes_cons_keep ' ' _ (by decide) (by decide),
    dropQuotes_quotedStr v hv]

theorem segStr_dropLast (k v : PyStr) :
    (quotedStr k ++ ':' :: ' ' :: quotedStr v).dropLast =
      quotedStr k ++ ':' :: ' ' :: '\'' :: v := by
  rw [List.dropLast_append_cons]
  congr 1
  rw [List.dropLast_cons₂]
  congr 1
  show (' ' :: ('\'' :: (v ++ ['\'']))).dropLast = ' ' :: '\'' :: v
  rw [List.dropLast_cons₂]
  congr 1
  exact quotedStr_dropLast v

theorem dropQuotes_segStr_last (k v : PyStr)
    (hk : ∀ c ∈ k, c ≠ '\'' ∧ c ≠ '\"') (hv : ∀ c ∈ v, c ≠ '\'' ∧ c ≠ '\"') :
    dropQuotes ((quotedStr k ++ ':' :: ' ' :: quotedStr v).dropLast) =
      k ++ ':' :: ' ' :: v := by
  rw [segStr_dropLast, dropQuotes_append, dropQuotes_quotedStr k hk,
    dropQuotes_cons_keep ':' _ (by decide) (by decide),
    dropQuotes_cons_keep ' ' _ (by decide) (by decide),
    dropQuotes_cons_quote, dropQuotes_of_clean v hv]

theorem processed_dict_str (kvs : List (PyStr × PyStr))
    (h : ∀ p ∈ kvs, (∀ c ∈ p.1, c ≠ '\'' ∧ c ≠ '\"') ∧ (∀ c ∈ p.2, c ≠ '\'' ∧ c ≠ '\"')) :
    (mapLast List.dropLast
        (kvs.map (fun p => quotedStr p.1 ++ ':' :: ' ' :: quotedStr p.2))).map dropQuotes =
      kvs.map (fun p => p.1 ++ ':' :: ' ' :: p.2) := by
  induction kvs with
  | nil => rfl
  | cons p rest ih =>
    cases rest with
    | nil =>
      show [dropQuotes ((quotedStr p.1 ++ ':' :: ' ' :: quotedStr p.2).dropLast)] = _
      rw [dropQuotes_segStr_last p.1 p.2 (h p (List.mem_cons_self _ _)).1
        (h p (List.mem_cons_self _ _)).2]
      rfl
    | cons q rest' =>
      show ((mapLast List.dropLast (
        (quotedStr p.1 ++ ':' :: ' ' :: quotedStr p.2) ::
          (q :: rest').map (fun r => quotedStr r.1 ++ ':' :: ' ' :: quotedStr r.2))).map dropQuotes) = _
      rw [mapLast_cons List.dropLast _ _ (by simp)]
      show dropQuotes (quotedStr p.1 ++ ':' :: ' ' :: quotedStr p.2) :: _ = _
      rw [dropQuotes_segStr p.1 p.2 (h p (List.mem_cons_self _ _)).1
        (h p (List.mem_cons_self _ _)).2]
      congr 1
      exact ih (fun r hr => h r (List.mem_cons_of_mem _ hr))

theorem intChars_no_quotes (n : Int) : ∀ c ∈ intChars n, c ≠ '\'' ∧ c ≠ '\"' := by
  intro c hc
  have hf := intChar_facts c (intChars_mem n c hc)
  exact ⟨hf.2.1, hf.2.2.1⟩

theorem segInt_dropLast (k : PyStr) (w : PyStr) (hw : w ≠ []) :
    (quotedStr k ++ ':' :: ' ' :: w).dropLast =
      quotedStr k ++ ':' :: ' ' :: w.dropLast := by
  rw [List.dropLast_append_cons]
  congr 1
  rw [List.dropLast_cons₂]
  congr 1
  obtain ⟨c, w', rfl⟩ := List.exists_cons_of_ne_nil hw
  rw [List.dropLast_cons₂]

theorem processed_dict_int (kvs : List (PyStr × Int))
    (hk : ∀ p ∈ kvs, ∀ c ∈ p.1, c ≠ '\'' ∧ c ≠ '\"') :
    (mapLast List.dropLast
        (kvs.map (fun p => quotedStr p.1 ++ ':' :: ' ' :: intChars p.2))).map dropQuotes =
      (truncLastVal (kvs.map (fun p => (p.1, intChars p.2)))).map
        (fun p => p.1 ++ ':' :: ' ' :: p.2) := by
  induction kvs with
  | nil => rfl
  | cons p rest ih =>
    cases rest with
    | nil =>
      show [dropQuotes ((quotedStr p.1 ++ ':' :: ' ' :: intChars p.2).dropLast)] = _
      rw [segInt_dropLast p.1 (intChars p.2) (intChars_ne_nil p.2),
        dropQuotes_append, dropQuotes_quotedStr p.1 (hk p (List.mem_cons_self _ _)),
        dropQuotes_cons_keep ':' _ (by decide) (by decide),
        dropQuotes_cons_keep ' ' _ (by decide) (by decide),
        dropQuotes_of_clean _ (fun c hc =>
          intChars_no_quotes p.2 c (List.dropLast_subset _ hc))]
      rfl
    | cons q rest' =>
      show ((mapLast List.dropLast (
        (quotedStr p.1 ++ ':' :: ' ' :: intChars p.2) ::
          (q :: rest').map (fun r => quotedStr r.1 ++ ':' :: ' ' :: intChars r.2))).map dropQuotes) = _
      rw [mapLast_cons List.dropLast _ _ (by simp)]
      show dropQuotes (quotedStr p.1 ++ ':' :: ' ' :: intChars p.2) :: _ = _
      rw [dropQuotes_append, dropQuotes_quotedStr p.1 (hk p (List.mem_cons_self _ _)),
        dropQuotes_cons_keep ':' _ (by decide) (by decide),
        dropQuotes_cons_keep ' ' _ (by decide) (by decide),
        dropQuotes_of_clean _ (intChars_no_quotes p.2)]
      show (p.1 ++ ':' :: ' ' :: intChars p.2) :: _ =
        (truncLastVal ((p.1, intChars p.2) :: (q :: rest').map (fun r => (r.1, intChars r.2)))).map
          (fun r => r.1 ++ ':' :: ' ' :: r.2)
      rw [show truncLastVal ((p.1, intChars p.2) :: (q :: rest').map (fun r => (r.1, intChars r.2))) =
        (p.1, intChars p.2) :: truncLastVal ((q :: rest').map (fun r => (r.1, intChars r.2))) from rfl]
      show _ :: _ = (p.1 ++ ':' :: ' ' :: intChars p.2) :: _
      congr 1
      exact ih (fun r hr => hk r (List.mem_cons_of_mem _ hr))

/-! ## Facts about `truncLastVal` -/

theorem truncLastVal_map_fst (l : List (PyStr × PyStr)) :
    (truncLastVal l).map Prod.fst = l.map Prod.fst := by
  induction l with
  | nil => rfl
  | cons p rest ih =>
    cases rest with
    | nil => rfl
    | cons q rest' =>
      show p.1 :: (truncLastVal (q :: rest')).map Prod.fst = p.1 :: (q :: rest').map Prod.fst
      rw [ih]

theorem truncLastVal_ne_nil (l : List (PyStr × PyStr)) (h : l ≠ []) :
    truncLastVal l ≠ [] := by
  cases l with
  | nil => exact absurd rfl h
  | cons p rest =>
    cases rest with
    | nil => simp [truncLastVal]
    | cons q rest' => simp [truncLastVal]

theorem mem_truncLastVal (l : List (PyStr × PyStr)) (p : PyStr × PyStr)
    (hp : p ∈ truncLastVal l) :
    ∃ q ∈ l, p.1 = q.1 ∧ (p.2 = q.2 ∨ p.2 = q.2.dropLast) := by
  induction l with
  | nil => cases hp
  | cons r rest ih =>
    cases rest with
    | nil =>
      have : p = (r.1, r.2.dropLast) := by simpa [truncLastVal] using hp
      exact ⟨r, List.mem_cons_self _ _, by rw [this], Or.inr (by rw [this])⟩
    | cons r2 rest' =>
      rcases List.mem_cons.mp hp with rfl | hm
      · exact ⟨p, List.mem_cons_self _ _, rfl, Or.inl rfl⟩
      · obtain ⟨q, hq, h1, h2⟩ := ih hm
        exact ⟨q, List.mem_cons_of_mem _ hq, h1, h2⟩

/-! ## Dict round-trips -/

theorem pyReprPairs_map_str_str (kvs : List (PyStr × PyStr))
    (h : ∀ p ∈ kvs, CleanKV p.1 ∧ CleanKV p.2) :
    pyReprPairs (kvs.map (fun p => (PyValue.str p.1, PyValue.str p.2))) =
      kvs.map (fun p => quotedStr p.1 ++ ':' :: ' ' :: quotedStr p.2) := by
  induction kvs with
  | nil => rfl
  | cons p rest ih =>
    show (pyRepr (.str p.1) ++ ':' :: ' ' :: pyRepr (.str p.2)) :: _ = _
    rw [show pyRepr (.str p.1) = pyReprStr p.1 from rfl,
      show pyRepr (.str p.2) = pyReprStr p.2 from rfl,
      pyReprStr_plain p.1 (cleanKV_plain p.1 (h p (List.mem_cons_self _ _)).1),
      pyReprStr_plain p.2 (cleanKV_plain p.2 (h p (List.mem_cons_self _ _)).2),
      ih (fun q hq => h q (List.mem_cons_of_mem _ hq))]
    rfl

theorem pyReprPairs_map_str_int (kvs : List (PyStr × Int))
    (h : ∀ p ∈ kvs, CleanKV p.1) :
    pyReprPairs (kvs.map (fun p => (PyValue.str p.1, PyValue.int p.2))) =
      kvs.map (fun p => quotedStr p.1 ++ ':' :: ' ' :: intChars p.2) := by
  induction kvs with
  | nil => rfl
  | cons p rest ih =>
    show (pyRepr (.str p.1) ++ ':' :: ' ' :: pyRepr (.int p.2)) :: _ = _
    rw [show pyRepr (.str p.1) = pyReprStr p.1 from rfl,
      pyReprStr_plain p.1 (cleanKV_plain p.1 (h p (List.mem_cons_self _ _))),
      ih (fun q hq => h q (List.mem_cons_of_mem _ hq))]
    rfl

/-- The shared slice step for a braced body. -/
theorem pySlice_braced (o : Char) (B : PyStr) (cl : Char) :
    pySlice1neg2 (o :: (B ++ [cl])) = B.dropLast := by
  show (((B ++ [cl]).dropLast).dropLast) = _
  rw [List.dropLast_concat]

/-- Non-readable round-trip for a mapping with clean string keys and clean
string values: decode recovers exactly the original key/value pairs. -/
theorem roundtrip_dict_str (kvs : List (PyStr × PyStr)) (hne : kvs ≠ [])
    (hclean : ∀ p ∈ kvs, CleanKV p.1 ∧ CleanKV p.2)
    (hnodup : (kvs.map Prod.fst).Nodup) :
    decodeCell (encodeValue false
        (.dict (kvs.map (fun p => (PyValue.str p.1, PyValue.str p.2))))) =
      some (.dDict kvs) := by
  have henc : encodeValue false
      (.dict (kvs.map (fun p => (PyValue.str p.1, PyValue.str p.2)))) =
      .cStr ('\x7b' :: (joinComma
        (kvs.map (fun p => quotedStr p.1 ++ ':' :: ' ' :: quotedStr p.2)) ++ ['\x7d'])) := by
    show Cell.cStr (pyRepr (.dict (kvs.map (fun p => (PyValue.str p.1, PyValue.str p.2))))) = _
    rw [show pyRepr (.dict (kvs.map (fun p => (PyValue.str p.1, PyValue.str p.2)))) =
      '\x7b' :: (joinComma (pyReprPairs
        (kvs.map (fun p => (PyValue.str p.1, PyValue.str p.2)))) ++ ['\x7d']) from rfl]
    rw [pyReprPairs_map_str_str kvs hclean]
  rw [henc]
  show (decodePairs (tokenBody ('\x7b' :: (joinComma
      (kvs.map (fun p => quotedStr p.1 ++ ':' :: ' ' :: quotedStr p.2)) ++ ['\x7d']))) []).map
      Decoded.dDict = _
  have hmapne : kvs.map (fun p => quotedStr p.1 ++ ':' :: ' ' :: quotedStr p.2) ≠ [] := by
    cases kvs with
    | nil => exact absurd rfl hne
    | cons a l => simp
  have hlast : (kvs.map (fun p => quotedStr p.1 ++ ':' :: ' ' :: quotedStr p.2)).getLast hmapne ≠ [] := by
    have hmem := List.getLast_mem hmapne
    obtain ⟨q, _, heq⟩ := List.mem_map.mp hmem
    rw [← heq]
    unfold quotedStr
    simp
  have hbody : tokenBody ('\x7b' :: (joinComma
      (kvs.map (fun p => quotedStr p.1 ++ ':' :: ' ' :: quotedStr p.2)) ++ ['\x7d'])) =
      spaced (kvs.map (fun p => p.1 ++ ':' :: ' ' :: p.2)) := by
    unfold tokenBody
    rw [show ∀ s, pyReplaceDel '\"' (pyReplaceDel '\'' s) = dropQuotes s from fun s => rfl]
    rw [pySlice_braced, joinComma_dropLast _ hmapne hlast, dropQuotes_joinComma,
      processed_dict_str kvs (fun p hp =>
        ⟨fun c hc => ⟨(((hclean p hp).1).1 c hc).2.1, (((hclean p hp).1).1 c hc).2.2.1⟩,
         fun c hc => ⟨(((hclean p hp).2).1 c hc).2.1, (((hclean p hp).2).1 c hc).2.2.1⟩⟩)]
    rw [pySplit_joinComma _ (by cases kvs with
        | nil => exact absurd rfl hne
        | cons a l => simp) ?_]
    intro s hs hcm
    obtain ⟨p, hp, heq⟩ := List.mem_map.mp hs
    rw [← heq] at hcm
    rcases List.mem_append.mp hcm with hcm | hcm
    · exact ((((hclean p hp).1).1 ',' hcm).1) rfl
    · rcases List.mem_cons.mp hcm with hc | hcm
      · exact absurd hc (by decide)
      · rcases List.mem_cons.mp hcm with hc | hcm
        · exact absurd hc (by decide)
        · exact ((((hclean p hp).2).1 ',' hcm).1) rfl
  rw [hbody]
  have hforall : List.Forall₂ SegSplits
      (spaced (kvs.map (fun p => p.1 ++ ':' :: ' ' :: p.2))) kvs :=
    forall₂_segSplits kvs (fun p hp =>
      ⟨⟨fun hc => ((((hclean p hp).1).1 ':' hc).2.2.2.1) rfl, ((hclean p hp).1).2⟩,
       ⟨fun hc => ((((hclean p hp).2).1 ':' hc).2.2.2.1) rfl, ((hclean p hp).2).2⟩⟩)
  rw [decodePairs_of_forall₂ _ kvs hforall [] hnodup (by intro p _ q hq; cases hq)]
  rfl

/-- Non-readable round-trip for a mapping with clean string keys and integer
values: decode yields the keys paired with the decimal strings of the
integers, the final pair's string docked of its last character. -/
theorem roundtrip_dict_int (kvs : List (PyStr × Int)) (hne : kvs ≠ [])
    (hclean : ∀ p ∈ kvs, CleanKV p.1)
    (hnodup : (kvs.map Prod.fst).Nodup) :
    decodeCell (encodeValue false
        (.dict (kvs.map (fun p => (PyValue.str p.1, PyValue.int p.2))))) =
      some (.dDict (truncLastVal (kvs.map (fun p => (p.1, intChars p.2))))) := by
  have henc : encodeValue false
      (.dict (kvs.map (fun p => (PyValue.str p.1, PyValue.int p.2)))) =
      .cStr ('\x7b' :: (joinComma
        (kvs.map (fun p => quotedStr p.1 ++ ':' :: ' ' :: intChars p.2)) ++ ['\x7d'])) := by
    show Cell.cStr (pyRepr (.dict (kvs.map (fun p => (PyValue.str p.1, PyValue.int p.2))))) = _
    rw [show pyRepr (.dict (kvs.map (fun p => (PyValue.str p.1, PyValue.int p.2)))) =
      '\x7b' :: (joinComma (pyReprPairs
        (kvs.map (fun p => (PyValue.str p.1, PyValue.int p.2)))) ++ ['\x7d']) from rfl]
    rw [pyReprPairs_map_str_int kvs hclean]
  rw [henc]
  show (decodePairs (tokenBody ('\x7b' :: (joinComma
      (kvs.map (fun p => quotedStr p.1 ++ ':' :: ' ' :: intChars p.2)) ++ ['\x7d']))) []).map
      Decoded.dDict = _
  have hmapne : kvs.map (fun p => quotedStr p.1 ++ ':' :: ' ' :: intChars p.2) ≠ [] := by
    cases kvs with
    | nil => exact absurd rfl hne
    | cons a l => simp
  have hlast : (kvs.map (fun p => quotedStr p.1 ++ ':' :: ' ' :: intChars p.2)).getLast hmapne ≠ [] := by
    have hmem := List.getLast_mem hmapne
    obtain ⟨q, _, heq⟩ := List.mem_map.mp hmem
    rw [← heq]
    unfold quotedStr
    simp
  have hvalfacts : ∀ p ∈ truncLastVal (kvs.map (fun p => (p.1, intChars p.2))),
      CleanKV p.1 ∧ (∀ c ∈ p.2, c ≠ ',' ∧ c ≠ ':' ∧ isPySpace c = false) := by
    intro p hp
    obtain ⟨q, hq, h1, h2⟩ := mem_truncLastVal _ p hp
    obtain ⟨r, hr, heq⟩ := List.mem_map.mp hq
    constructor
    · rw [h1, ← heq]
      exact hclean r hr
    · intro c hc
      have hcmem : c ∈ intChars r.2 := by
        rcases h2 with h2 | h2
        · rw [h2, ← heq] at hc
          exact hc
        · rw [h2, ← heq] at hc
          exact List.dropLast_subset _ hc
      have hf := intChar_facts c (intChars_mem r.2 c hcmem)
      exact ⟨hf.1, hf.2.2.2.1, hf.2.2.2.2⟩
  have hbody : tokenBody ('\x7b' :: (joinComma
      (kvs.map (fun p => quotedStr p.1 ++ ':' :: ' ' :: intChars p.2)) ++ ['\x7d'])) =
      spaced ((truncLastVal (kvs.map (fun p => (p.1, intChars p.2)))).map
        (fun p => p.1 ++ ':' :: ' ' :: p.2)) := by
    unfold tokenBody
    rw [show ∀ s, pyReplaceDel '\"' (pyReplaceDel '\'' s) = dropQuotes s from fun s => rfl]
    rw [pySlice_braced, joinComma_dropLast _ hmapne hlast, dropQuotes_joinComma,
      processed_dict_int kvs (fun p hp =>
        fun c hc => ⟨((hclean p hp).1 c hc).2.1, ((hclean p hp).1 c hc).2.2.1⟩)]
    have hssne : (truncLastVal (kvs.map (fun p => (p.1, intChars p.2)))).map
        (fun p => p.1 ++ ':' :: ' ' :: p.2) ≠ [] := by
      intro hnil
      exact truncLastVal_ne_nil _ (by
        cases kvs with
        | nil => exact absurd rfl hne
        | cons a l => simp) (List.map_eq_nil_iff.mp hnil)
    rw [pySplit_joinComma _ hssne ?_]
    intro s hs hcm
    obtain ⟨p, hp, heq⟩ := List.mem_map.mp hs
    rw [← heq] at hcm
    have hfacts := hvalfacts p hp
    rcases List.mem_append.mp hcm with hcm | hcm
    · exact ((hfacts.1.1 ',' hcm).1) rfl
    · rcases List.mem_cons.mp hcm with hc | hcm
      · exact absurd hc (by decide)
      · rcases List.mem_cons.mp hcm with hc | hcm
        · exact absurd hc (by decide)
        · exact (hfacts.2 ',' hcm).1 rfl
  rw [hbody]
  have hforall : List.Forall₂ SegSplits
      (spaced ((truncLastVal (kvs.map (fun p => (p.1, intChars p.2)))).map
        (fun p => p.1 ++ ':' :: ' ' :: p.2)))
      (truncLastVal (kvs.map (fun p => (p.1, intChars p.2)))) :=
    forall₂_segSplits _ (fun p hp =>
      ⟨⟨fun hc => (((hvalfacts p hp).1.1 ':' hc).2.2.2.1) rfl, (hvalfacts p hp).1.2⟩,
       ⟨fun hc => ((hvalfacts p hp).2 ':' hc).2.1 rfl,
        pyStrip_of_no_space _ (fun c hc => ((hvalfacts p hp).2 c hc).2.2)⟩⟩)
  have hnodup' : ((truncLastVal (kvs.map (fun p => (p.1, intChars p.2)))).map Prod.fst).Nodup := by
    rw [truncLastVal_map_fst]
    have : (kvs.map (fun p => (p.1, intChars p.2))).map Prod.fst = kvs.map Prod.fst := by
      rw [List.map_map]
      rfl
    rw [this]
    exact hnodup
  rw [decodePairs_of_forall₂ _ _ hforall [] hnodup' (by intro p _ q hq; cases hq)]
  rfl

/-! ## Claim theorems: non-readable container round-trips -/

/-- C2 counterexample: a list of integers does not round-trip — the decode
slice `value[1:-2]` eats the last element's final character and the `[`
token decode yields strings, so `[1, 2]` loads back as `["1", ""]`, which is
not equal to the original container. -/
theorem claim_C2_counterexample :
    decodeCell (encodeValue false (.list [.int 1, .int 2])) = some (.dList [['1'], []]) ∧
    containerEqPy (.dList [['1'], []]) (.list [.int 1, .int 2]) = false := by decide

/-- C2 amended: with `readable=False`, a nonempty list or tuple attribute
whose elements are clean strings (trimmed, free of comma and quote
characters) decodes back to exactly those elements — the list/tuple kind is
even preserved — and a nonempty mapping attribute with distinct clean
colon-free string keys and clean colon-free string values decodes back to
exactly the original key/value pairs. -/
theorem claim_C2_container_roundtrip (xs ys : List PyStr) (kvs : List (PyStr × PyStr))
    (hxs : xs ≠ []) (hxsc : ∀ s ∈ xs, CleanStr s)
    (hys : ys ≠ []) (hysc : ∀ s ∈ ys, CleanStr s)
    (hkvs : kvs ≠ []) (hkvsc : ∀ p ∈ kvs, CleanKV p.1 ∧ CleanKV p.2)
    (hnodup : (kvs.map Prod.fst).Nodup) :
    decodeCell (encodeValue false (.list (xs.map PyValue.str))) = some (.dList xs) ∧
    decodeCell (encodeValue false (.tuple (ys.map PyValue.str))) = some (.dTuple ys) ∧
    decodeCell (encodeValue false
        (.dict (kvs.map (fun p => (PyValue.str p.1, PyValue.str p.2))))) =
      some (.dDict kvs) :=
  ⟨roundtrip_list xs hxs hxsc, roundtrip_tuple ys hys hysc,
    roundtrip_dict_str kvs hkvs hkvsc hnodup⟩

/-- Witness for C2 amended: the test suite's own containers round-trip. -/
theorem claim_C2_witness :
    decodeCell (encodeValue false
        (PyValue.list (["Abby".data, "Mike".data, "Janice".data].map PyValue.str))) =
      some (.dList ["Abby".data, "Mike".data, "Janice".data]) ∧
    decodeCell (encodeValue false (PyValue.tuple (["a".data].map PyValue.str))) =
      some (.dTuple ["a".data]) ∧
    decodeCell (encodeValue false
        (.dict ([("age".data, "young".data), ("name".data, "Francis".data)].map
          (fun p => (PyValue.str p.1, PyValue.str p.2))))) =
      some (.dDict [("age".data, "young".data), ("name".data, "Francis".data)]) :=
  claim_C2_container_roundtrip
    ["Abby".data, "Mike".data, "Janice".data] ["a".data]
    [("age".data, "young".data), ("name".data, "Francis".data)]
    (by decide) (by decide) (by decide) (by decide) (by decide) (by decide) (by decide)

/-- C6 counterexample: the empty mapping, stored with `readable=False` as
`"\x7b\x7d"`, makes the load raise `ValueError` (the single empty segment has
no `":"` to unpack) — the cell does not decode to a mapping at all. -/
theorem claim_C6_counterexample :
    decodeCell (encodeValue false (.dict [])) = none := by decide

/-- C6 amended: a nonempty mapping with distinct clean colon-free string
keys and integer values, stored with `readable=False`, decodes to a mapping
with exactly the original keys whose values are all trimmed strings — the
decimal rendering of each integer, never re-coerced to a number, with the
final pair's rendering docked of its last character by the decode slice. -/
theorem claim_C6_mapping_strings (kvs : List (PyStr × Int)) (hne : kvs ≠ [])
    (hclean : ∀ p ∈ kvs, CleanKV p.1) (hnodup : (kvs.map Prod.fst).Nodup) :
    decodeCell (encodeValue false
        (.dict (kvs.map (fun p => (PyValue.str p.1, PyValue.int p.2))))) =
      some (.dDict (truncLastVal (kvs.map (fun p => (p.1, intChars p.2))))) ∧
    (truncLastVal (kvs.map (fun p => (p.1, intChars p.2)))).map Prod.fst =
      kvs.map Prod.fst ∧
    (∀ q ∈ truncLastVal (kvs.map (fun p => (p.1, intChars p.2))), pyStrip q.2 = q.2) := by
  refine ⟨roundtrip_dict_int kvs hne hclean hnodup, ?_, ?_⟩
  · rw [truncLastVal_map_fst, List.map_map]
    rfl
  · intro q hq
    obtain ⟨r, hr, _, h2⟩ := mem_truncLastVal _ q hq
    obtain ⟨w, _, heq⟩ := List.mem_map.mp hr
    refine pyStrip_of_no_space _ (fun c hc => ?_)
    have hcmem : c ∈ intChars w.2 := by
      rcases h2 with h2 | h2
      · rw [h2, ← heq] at hc
        exact hc
      · rw [h2, ← heq] at hc
        exact List.dropLast_subset _ hc
    exact (intChar_facts c (intChars_mem w.2 c hcmem)).2.2.2.2

/-- Witness for C6 amended: `\x7b"age": 21, "weight": 75\x7d` decodes with
string values `"21"` and `"7"` (the last truncated), never integers. -/
theorem claim_C6_witness :
    decodeCell (encodeValue false
        (.dict [(.str "age".data, .int 21), (.str "weight".data, .int 75)])) =
      some (.dDict [("age".data, "21".data), ("weight".data, "7".data)]) := by
  have h := (claim_C6_mapping_strings [("age".data, 21), ("weight".data, 75)]
    (by decide) (by decide) (by decide)).1
  exact h.trans (by decide)

end EzSpreadsheet
